import Mathlib

/-!
# Verification of the audx frame-accumulation / timestamp pipeline

Shallow embedding of the core of `audx` (a streaming audio transcoder):

* `encode_from_fifo` models the loop of the same name in
  `src/audio_enc.c` (lines 308–358): it repeatedly removes
  `min (fifo size) frame_size` samples from the head of the audio FIFO
  while the FIFO holds at least `frame_size` samples, or — in `finish`
  mode — while it is non-empty.
* `encode_frame_pts` / `ptsTrace` model the timestamp assignment in
  `encode_frame` (lines 256–263): `frame->pts = encoder->pts;
  encoder->pts += frame->nb_samples;`.
* `pipelineFrames` models the driver behaviour of `audio_enc_write_frame`
  (write converted samples into the FIFO, then drain all complete frames)
  followed by the end-of-stream drain (`finish = 1`).
* `dst_nb_samples`, `swr_convert_model` model the output-size computation
  `av_rescale_rnd(delay + nb_samples, dst_rate, src_rate, AV_ROUND_UP)`
  and the resampler's carried rounding slack.
* `mainLoop` models the control flow of the decode/filter/encode loop in
  `main.c` (lines 168–237), `audio_enc_finalize_events` the flush
  sequence of `audio_enc_finalize` (lines 437–460), `audio_filter_pull`
  the function of the same name in `src/audio_filter.c`, and
  `audio_decoder_read` the function of the same name in
  `src/audio_dec.c`.

Samples are abstract (`α`); the FIFO is a Lean `List α` consumed strictly
at the head, exactly as `av_audio_fifo_read` consumes the C FIFO.
-/

namespace Audx

/-- Fuel-indexed body of the `while` loop of `encode_from_fifo`
(`src/audio_enc.c:313-355`).  Each iteration removes
`samples_to_read = min (fifo size) frame_size` samples from the head of
the FIFO and emits them as one frame; the loop runs while the FIFO holds
at least `frameSize` samples, or — in `finish` mode — while it is
non-empty.  `fuel` only bounds the iteration count (each iteration
removes at least one sample, so `fifo.length` fuel always suffices);
structural recursion on it keeps the function kernel-computable. -/
def encodeFromFifoF (frameSize : Nat) (finish : Bool) :
    Nat → List α → List (List α) × List α
  | 0, fifo => ([], fifo)
  | fuel + 1, fifo =>
    if (frameSize ≤ fifo.length ∨ (finish ∧ 0 < fifo.length)) ∧ 0 < frameSize then
      let n := min fifo.length frameSize
      let rest := encodeFromFifoF frameSize finish fuel (fifo.drop n)
      (fifo.take n :: rest.1, rest.2)
    else
      ([], fifo)

/-- The loop of `encode_from_fifo` (`src/audio_enc.c:308-358`): returns
the emitted frames in order together with the samples left in the FIFO.
The C loop does not terminate when `frame_size = 0` (it would read zero
samples forever), so the model's guard additionally requires
`0 < frameSize`; every theorem below assumes a positive frame size. -/
def encode_from_fifo (frameSize : Nat) (finish : Bool) (fifo : List α) :
    List (List α) × List α :=
  encodeFromFifoF frameSize finish fifo.length fifo

/-- When the loop guard is positive, at least one sample is removed. -/
theorem encode_from_fifo_guard_min {frameSize : Nat} {finish : Bool} {fifo : List α}
    (h : (frameSize ≤ fifo.length ∨ (finish ∧ 0 < fifo.length)) ∧ 0 < frameSize) :
    0 < min fifo.length frameSize := by
  rcases h.1 with h1 | h1
  · exact lt_min_iff.mpr ⟨lt_of_lt_of_le h.2 h1, h.2⟩
  · exact lt_min_iff.mpr ⟨h1.2, h.2⟩

/-- Any fuel at least `fifo.length` computes the same result. -/
theorem encodeFromFifoF_fuel_mono (frameSize : Nat) (finish : Bool) :
    ∀ fuel₁ fuel₂ (fifo : List α), fifo.length ≤ fuel₁ → fifo.length ≤ fuel₂ →
      encodeFromFifoF frameSize finish fuel₁ fifo =
        encodeFromFifoF frameSize finish fuel₂ fifo
  | 0, 0, _, _, _ => rfl
  | 0, fuel₂ + 1, fifo, h₁, _ => by
    have hfifo : fifo = [] := List.length_eq_zero.mp (by omega)
    subst hfifo
    simp only [encodeFromFifoF]
    rw [if_neg]
    rintro ⟨h1 | h1, h2⟩
    · simp at h1
      omega
    · simp at h1
  | fuel₁ + 1, 0, fifo, _, h₂ => by
    have hfifo : fifo = [] := List.length_eq_zero.mp (by omega)
    subst hfifo
    simp only [encodeFromFifoF]
    rw [if_neg]
    rintro ⟨h1 | h1, h2⟩
    · simp at h1
      omega
    · simp at h1
  | fuel₁ + 1, fuel₂ + 1, fifo, h₁, h₂ => by
    by_cases h : (frameSize ≤ fifo.length ∨ (finish ∧ 0 < fifo.length)) ∧ 0 < frameSize
    · have hn := encode_from_fifo_guard_min h
      have hdrop₁ : (fifo.drop (min fifo.length frameSize)).length ≤ fuel₁ := by
        simp only [List.length_drop]
        omega
      have hdrop₂ : (fifo.drop (min fifo.length frameSize)).length ≤ fuel₂ := by
        simp only [List.length_drop]
        omega
      simp only [encodeFromFifoF, if_pos h]
      rw [encodeFromFifoF_fuel_mono frameSize finish fuel₁ fuel₂ _ hdrop₁ hdrop₂]
    · simp only [encodeFromFifoF, if_neg h]

theorem encode_from_fifo_succ_fuel (frameSize : Nat) (finish : Bool) (fifo : List α) :
    encode_from_fifo frameSize finish fifo =
      encodeFromFifoF frameSize finish (fifo.length + 1) fifo :=
  encodeFromFifoF_fuel_mono frameSize finish fifo.length (fifo.length + 1) fifo
    le_rfl (Nat.le_succ _)

theorem encode_from_fifo_of_neg {frameSize : Nat} {finish : Bool} {fifo : List α}
    (h : ¬ ((frameSize ≤ fifo.length ∨ (finish ∧ 0 < fifo.length)) ∧ 0 < frameSize)) :
    encode_from_fifo frameSize finish fifo = ([], fifo) := by
  rw [encode_from_fifo_succ_fuel]
  simp only [encodeFromFifoF, if_neg h]

theorem encode_from_fifo_of_pos {frameSize : Nat} {finish : Bool} {fifo : List α}
    (h : (frameSize ≤ fifo.length ∨ (finish ∧ 0 < fifo.length)) ∧ 0 < frameSize) :
    encode_from_fifo frameSize finish fifo =
      (fifo.take (min fifo.length frameSize) ::
        (encode_from_fifo frameSize finish (fifo.drop (min fifo.length frameSize))).1,
       (encode_from_fifo frameSize finish (fifo.drop (min fifo.length frameSize))).2) := by
  have hn := encode_from_fifo_guard_min h
  have hdrop : (fifo.drop (min fifo.length frameSize)).length ≤ fifo.length := by
    simp only [List.length_drop]
    omega
  rw [encode_from_fifo_succ_fuel]
  simp only [encodeFromFifoF, if_pos h]
  rw [encodeFromFifoF_fuel_mono frameSize finish fifo.length
        (fifo.drop (min fifo.length frameSize)).length _ hdrop le_rfl]
  rfl

/-- No sample is lost, duplicated or reordered by the FIFO-draining loop:
the emitted frames, concatenated, followed by the residue, reproduce the
FIFO contents exactly. -/
theorem encode_from_fifo_flatten (frameSize : Nat) (finish : Bool) (fifo : List α) :
    (encode_from_fifo frameSize finish fifo).1.flatten ++
      (encode_from_fifo frameSize finish fifo).2 = fifo := by
  by_cases h : (frameSize ≤ fifo.length ∨ (finish ∧ 0 < fifo.length)) ∧ 0 < frameSize
  · have hn : 0 < min fifo.length frameSize := by
      rcases h.1 with h1 | h1
      · exact lt_min_iff.mpr ⟨lt_of_lt_of_le h.2 h1, h.2⟩
      · exact lt_min_iff.mpr ⟨h1.2, h.2⟩
    have hlt : (fifo.drop (min fifo.length frameSize)).length < fifo.length := by
      have hlen : 0 < fifo.length := lt_of_lt_of_le hn (min_le_left _ _)
      simp only [List.length_drop]
      omega
    rw [encode_from_fifo_of_pos h]
    have ih := encode_from_fifo_flatten frameSize finish (fifo.drop (min fifo.length frameSize))
    simp only [List.flatten_cons, List.append_assoc, ih, List.take_append_drop]
  · rw [encode_from_fifo_of_neg h]
    simp
termination_by fifo.length

/-- In `finish` mode the loop drains the FIFO completely. -/
theorem encode_from_fifo_finish_residue (frameSize : Nat) (fifo : List α)
    (hfs : 0 < frameSize) :
    (encode_from_fifo frameSize true fifo).2 = [] := by
  by_cases h0 : 0 < fifo.length
  · have h : (frameSize ≤ fifo.length ∨ (true = true ∧ 0 < fifo.length)) ∧ 0 < frameSize :=
      ⟨Or.inr ⟨rfl, h0⟩, hfs⟩
    have hn : 0 < min fifo.length frameSize := lt_min_iff.mpr ⟨h0, hfs⟩
    have hlt : (fifo.drop (min fifo.length frameSize)).length < fifo.length := by
      simp only [List.length_drop]
      omega
    rw [encode_from_fifo_of_pos h]
    exact encode_from_fifo_finish_residue frameSize (fifo.drop (min fifo.length frameSize)) hfs
  · have hfifo : fifo = [] := List.length_eq_zero.mp (by omega)
    subst hfifo
    rw [encode_from_fifo_of_neg (by simp)]
termination_by fifo.length

/-- In normal streaming (`finish = 0`) every emitted frame has exactly
`frameSize` samples: the loop guard ensures `fifo size ≥ frame_size`, so
`samples_to_read` is clamped to exactly `frame_size`. -/
theorem encode_from_fifo_stream_frame_len (frameSize : Nat) (fifo : List α)
    (f : List α) (hf : f ∈ (encode_from_fifo frameSize false fifo).1) :
    f.length = frameSize := by
  by_cases h : (frameSize ≤ fifo.length ∨ (false = true ∧ 0 < fifo.length)) ∧ 0 < frameSize
  · have hge : frameSize ≤ fifo.length := by
      rcases h.1 with h1 | h1
      · exact h1
      · exact absurd h1.1 (by simp)
    have hmin : min fifo.length frameSize = frameSize := min_eq_right hge
    have hn : 0 < min fifo.length frameSize := by omega
    have hlt : (fifo.drop (min fifo.length frameSize)).length < fifo.length := by
      simp only [List.length_drop]
      omega
    rw [encode_from_fifo_of_pos h] at hf
    rcases List.mem_cons.mp hf with hf | hf
    · subst hf
      simp [hmin, List.length_take, hge]
    · exact encode_from_fifo_stream_frame_len frameSize
        (fifo.drop (min fifo.length frameSize)) f hf
  · rw [encode_from_fifo_of_neg h] at hf
    simp at hf
termination_by fifo.length

/-- The drain (`finish = 1`) emits no frame exactly when the FIFO is empty. -/
theorem encode_from_fifo_drain_empty_iff (frameSize : Nat) (fifo : List α)
    (hfs : 0 < frameSize) :
    (encode_from_fifo frameSize true fifo).1 = [] ↔ fifo = [] := by
  constructor
  · intro hempty
    by_cases h0 : 0 < fifo.length
    · have h : (frameSize ≤ fifo.length ∨ (true = true ∧ 0 < fifo.length)) ∧ 0 < frameSize :=
        ⟨Or.inr ⟨rfl, h0⟩, hfs⟩
      rw [encode_from_fifo_of_pos h] at hempty
      exact absurd hempty (List.cons_ne_nil _ _)
    · exact List.length_eq_zero.mp (by omega)
  · intro hfifo
    subst hfifo
    rw [encode_from_fifo_of_neg (by simp)]

/-- In normal streaming the loop stops as soon as fewer than `frameSize`
samples remain, so the residue is always shorter than one frame. -/
theorem encode_from_fifo_stream_residue (frameSize : Nat) (fifo : List α) :
    (encode_from_fifo frameSize false fifo).2.length < frameSize ∨ frameSize = 0 := by
  by_cases h : (frameSize ≤ fifo.length ∨ (false = true ∧ 0 < fifo.length)) ∧ 0 < frameSize
  · have hn := encode_from_fifo_guard_min h
    have hlt : (fifo.drop (min fifo.length frameSize)).length < fifo.length := by
      have hlen : 0 < fifo.length := lt_of_lt_of_le hn (min_le_left _ _)
      simp only [List.length_drop]
      omega
    rw [encode_from_fifo_of_pos h]
    exact encode_from_fifo_stream_residue frameSize (fifo.drop (min fifo.length frameSize))
  · rw [encode_from_fifo_of_neg h]
    by_cases hfs : 0 < frameSize
    · left
      push_neg at h
      rcases Nat.lt_or_ge fifo.length frameSize with hl | hl
      · exact hl
      · exact absurd hfs (by simpa [hl] using h)
    · right
      omega
termination_by fifo.length

/-- The FIFO behaviour of each `audio_enc_write_frame` call
(`src/audio_enc.c:413-425`): the converted samples are appended at the
tail of the FIFO by `av_audio_fifo_write`, after which
`encode_from_fifo(encoder, 0)` drains every complete frame. -/
def audio_enc_write_frame_fifo (frameSize : Nat) (fifo block : List α) :
    List (List α) × List α :=
  encode_from_fifo frameSize false (fifo ++ block)

/-- The frames emitted by a sequence of `audio_enc_write_frame` calls
starting from FIFO contents `fifo`, followed by the end-of-stream drain
`encode_from_fifo(encoder, 1)` performed by `audio_enc_write_frame(enc,
NULL)` (`src/audio_enc.c:426-434`). -/
def pipelineFrames (frameSize : Nat) : List α → List (List α) → List (List α)
  | fifo, [] => (encode_from_fifo frameSize true fifo).1
  | fifo, w :: ws =>
    let r := audio_enc_write_frame_fifo frameSize fifo w
    r.1 ++ pipelineFrames frameSize r.2 ws

theorem pipelineFrames_flatten (frameSize : Nat) (hfs : 0 < frameSize) :
    ∀ (writes : List (List α)) (fifo : List α),
      (pipelineFrames frameSize fifo writes).flatten = fifo ++ writes.flatten
  | [], fifo => by
    have h := encode_from_fifo_flatten frameSize true fifo
    rw [encode_from_fifo_finish_residue frameSize fifo hfs, List.append_nil] at h
    simpa [pipelineFrames] using h
  | w :: ws, fifo => by
    have h := encode_from_fifo_flatten frameSize false (fifo ++ w)
    have ih := pipelineFrames_flatten frameSize hfs ws
      (encode_from_fifo frameSize false (fifo ++ w)).2
    simp only [pipelineFrames, audio_enc_write_frame_fifo, List.flatten_append,
      List.flatten_cons, ih]
    rw [← List.append_assoc, h, List.append_assoc]

/-- **C1.** For any sequence of writes into the encoder's audio FIFO,
each followed by exhaustive fixed-size reads (`encode_from_fifo` with
`finish = 0`), and a final end-of-stream drain (`finish = 1`), the
concatenation of all emitted frames equals the exact concatenation of
all written samples, in FIFO order — no sample lost, duplicated, or
reordered. -/
theorem C1_fifo_roundtrip_no_loss (frameSize : Nat) (writes : List (List α))
    (hfs : 0 < frameSize) :
    (pipelineFrames frameSize [] writes).flatten = writes.flatten := by
  simpa using pipelineFrames_flatten frameSize hfs writes []

theorem C1_fifo_roundtrip_no_loss_witness :
    (0 < 2) ∧
      (pipelineFrames 2 [] [[1, 2, 3], [4], [], [5, 6, 7]]).flatten =
        ([[1, 2, 3], [4], [], [5, 6, 7]] : List (List Nat)).flatten :=
  ⟨by decide, C1_fifo_roundtrip_no_loss 2 [[1, 2, 3], [4], [], [5, 6, 7]] (by decide)⟩

/-- **C2.** Every frame taken from the FIFO during normal streaming
(`finish = 0`) has exactly `frame_size` samples — a short frame can only
come from the end-of-stream drain (`finish = 1`) — and the drain
produces no frame if and only if the FIFO is empty. -/
theorem C2_stream_frames_full_drain_iff_nonempty (frameSize : Nat) (fifo : List α)
    (hfs : 0 < frameSize) :
    (∀ f ∈ (encode_from_fifo frameSize false fifo).1, f.length = frameSize) ∧
      ((encode_from_fifo frameSize true fifo).1 = [] ↔ fifo = []) :=
  ⟨fun f hf => encode_from_fifo_stream_frame_len frameSize fifo f hf,
   encode_from_fifo_drain_empty_iff frameSize fifo hfs⟩

theorem C2_stream_frames_full_drain_iff_nonempty_witness :
    (0 < 2) ∧
      ((∀ f ∈ (encode_from_fifo 2 false [1, 2, 3, 4, 5]).1, f.length = 2) ∧
        ((encode_from_fifo 2 true ([1, 2, 3, 4, 5] : List Nat)).1 = [] ↔
          ([1, 2, 3, 4, 5] : List Nat) = [])) :=
  ⟨by decide, C2_stream_frames_full_drain_iff_nonempty 2 [1, 2, 3, 4, 5] (by decide)⟩

/-! ## Timestamp assignment (`encode_frame`, `src/audio_enc.c:256-263`)

```c
if (frame) {
  frame->pts = encoder->pts;
  encoder->pts += frame->nb_samples;
}
```
The time base is `(AVRational){1, sample_rate}` (`audio_enc_init`,
lines 166–167), so `pts` counts samples. -/

/-- Timestamps assigned by `encode_frame` to successive frames with the
given sample counts, starting from stream position `pts`. -/
def encode_frame_pts (pts : Int) : List Nat → List Int
  | [] => []
  | n :: ns => pts :: encode_frame_pts (pts + n) ns

theorem encode_frame_pts_length (pts : Int) (ns : List Nat) :
    (encode_frame_pts pts ns).length = ns.length := by
  induction ns generalizing pts with
  | nil => rfl
  | cons n ns ih => simp [encode_frame_pts, ih]

/-- Each assigned timestamp is the running total of samples emitted
before that frame, offset by the starting position. -/
theorem encode_frame_pts_get (ns : List Nat) (pts : Int) (i : Nat)
    (hi : i < ns.length) :
    (encode_frame_pts pts ns)[i]! = pts + ((ns.take i).sum : Int) := by
  induction ns generalizing pts i with
  | nil => simp at hi
  | cons n ns ih =>
    cases i with
    | zero => simp [encode_frame_pts]
    | succ j =>
      have hj : j < ns.length := by simpa using hi
      have := ih (pts + n) j hj
      simp only [encode_frame_pts, List.take_succ_cons, List.sum_cons]
      rw [List.getElem!_cons_succ, this]
      push_cast
      ring

/-- **C3.** For frames with sample counts `[a, b, c]` sent through
`encode_frame` from stream position 0, the presentation timestamps
assigned are `[0, a, a + b]` in the encoder's `1/sample_rate` time base:
each frame's pts is the running total of samples emitted before it. -/
theorem C3_timestamps_are_prefix_sums (a b c : Nat) :
    encode_frame_pts 0 [a, b, c] = [0, (a : Int), (a : Int) + (b : Int)] := by
  simp [encode_frame_pts]

/-! ## Stream-position counter (`encoder->pts`) across encode operations -/

/-- One call to `encode_frame`: either a real frame of `n` samples is
sent (`emit n`), or the flush signal `NULL` is sent (`flush`), which
leaves `encoder->pts` untouched (the `if (frame)` guard). -/
inductive EncOp where
  | emit (n : Nat)
  | flush
deriving DecidableEq, Repr

/-- Effect of one `encode_frame` call on `encoder->pts`. -/
def ptsAfterOp (pts : Int) : EncOp → Int
  | .emit n => pts + n
  | .flush => pts

/-- The successive values of `encoder->pts`, starting value included,
across a sequence of `encode_frame` calls. -/
def ptsTrace (pts : Int) : List EncOp → List Int
  | [] => [pts]
  | op :: ops => pts :: ptsTrace (ptsAfterOp pts op) ops

theorem ptsTrace_head (pts : Int) (ops : List EncOp) :
    (ptsTrace pts ops).head? = some pts := by
  cases ops <;> rfl

theorem ptsTrace_chain (pts : Int) (ops : List EncOp) :
    List.Chain' (· ≤ ·) (ptsTrace pts ops) := by
  induction ops generalizing pts with
  | nil => simp [ptsTrace]
  | cons op ops ih =>
    rw [ptsTrace, List.chain'_cons']
    refine ⟨?_, ih (ptsAfterOp pts op)⟩
    intro b hb
    rw [ptsTrace_head] at hb
    cases hb
    cases op with
    | emit n => simp [ptsAfterOp]
    | flush => simp [ptsAfterOp]

theorem ptsAfterOp_le (pts : Int) (op : EncOp) : pts ≤ ptsAfterOp pts op := by
  cases op with
  | emit n => simp [ptsAfterOp]
  | flush => simp [ptsAfterOp]

theorem foldl_ptsAfterOp_le (pts : Int) (ops : List EncOp) :
    pts ≤ ops.foldl ptsAfterOp pts := by
  induction ops generalizing pts with
  | nil => simp [List.foldl]
  | cons op ops ih => exact le_trans (ptsAfterOp_le pts op) (ih _)

theorem ptsTrace_last (pts : Int) (ops : List EncOp) :
    (ptsTrace pts ops).getLast? = some (ops.foldl ptsAfterOp pts) := by
  induction ops generalizing pts with
  | nil => rfl
  | cons op ops ih =>
    rw [ptsTrace, List.getLast?_cons, ih]
    simp [List.foldl]

/-- **C4.** `encoder->pts` never decreases across any sequence of encode
operations (the whole trace of its values is a `≤`-chain and the final
value dominates the initial one); each emission increases it by exactly
the emitted frame's sample count; consequently consecutive assigned
timestamps differ by exactly the previous frame's sample count — no
gaps, no overlaps. -/
theorem C4_stream_position_monotone (pts0 : Int) (ops : List EncOp)
    (p : Int) (ns : List Nat) (i : Nat) (hi : i + 1 < ns.length) :
    List.Chain' (· ≤ ·) (ptsTrace pts0 ops) ∧
      pts0 ≤ ops.foldl ptsAfterOp pts0 ∧
      (∀ n : Nat, ptsAfterOp pts0 (.emit n) = pts0 + n) ∧
      (encode_frame_pts p ns)[i + 1]! = (encode_frame_pts p ns)[i]! + ns[i]! := by
  refine ⟨ptsTrace_chain pts0 ops, foldl_ptsAfterOp_le pts0 ops, fun n => rfl, ?_⟩
  · have h1 := encode_frame_pts_get ns p (i + 1) hi
    have h0 := encode_frame_pts_get ns p i (by omega)
    rw [h1, h0]
    have htake : (ns.take (i + 1)).sum = (ns.take i).sum + ns[i]! := by
      have hi' : i < ns.length := by omega
      rw [getElem!_pos ns i hi', List.sum_take_succ ns i hi']
    rw [htake]
    push_cast
    ring

theorem C4_stream_position_monotone_witness :
    List.Chain' (· ≤ ·) (ptsTrace 7 [EncOp.emit 3, EncOp.flush, EncOp.emit 2]) ∧
      (7 : Int) ≤ [EncOp.emit 3, EncOp.flush, EncOp.emit 2].foldl ptsAfterOp 7 ∧
      (∀ n : Nat, ptsAfterOp 7 (.emit n) = 7 + n) ∧
      (encode_frame_pts 0 [5, 6, 9])[1 + 1]! =
        (encode_frame_pts 0 [5, 6, 9])[1]! + ([5, 6, 9] : List Nat)[1]! :=
  C4_stream_position_monotone 7 [EncOp.emit 3, EncOp.flush, EncOp.emit 2]
    0 [5, 6, 9] 1 (by decide)

/-! ## Output-size computation of the resampling step (C5)

Both `audio_decoder_read` (`src/audio_dec.c:184-187`) and
`audio_enc_write_frame` (`src/audio_enc.c:389-392`) size the conversion
buffer as

```c
int dst_nb_samples = av_rescale_rnd(
    swr_get_delay(swr_ctx, src_rate) + nb_samples,
    dst_rate, src_rate, AV_ROUND_UP);
```
-/

/-- libavutil's `av_rescale_rnd(a, b, c, AV_ROUND_UP)` for non-negative
arguments: `(a * b + c - 1) / c`, i.e. `a * b / c` rounded up. -/
def av_rescale_rnd_up (a b c : Nat) : Nat :=
  (a * b + c - 1) / c

/-- The buffer-size computation shared by `audio_decoder_read` and
`audio_enc_write_frame`: ceiling-rounded rate scaling of
(resampler delay + input sample count). -/
def dst_nb_samples (delay nbSamples dstRate srcRate : Nat) : Nat :=
  av_rescale_rnd_up (delay + nbSamples) dstRate srcRate

theorem av_rescale_rnd_up_eq_ceilDiv (a b c : Nat) :
    av_rescale_rnd_up a b c = (a * b) ⌈/⌉ c := rfl

/-- Modelled from the spec: the internal state of the FFmpeg
`swr_convert` rate converter is external to `src/`; per the spec's
SampleConverter contract, the converter carries the rounding slack of
the rate ratio `dstRate / srcRate` across calls.  The state is the
numerator remainder `carry` (`0 ≤ carry < srcRate`); one call consuming
`n` input samples emits `(carry + n * dstRate) / srcRate` whole output
samples and retains the new remainder. -/
def swr_convert_model (srcRate dstRate carry n : Nat) : Nat × Nat :=
  ((carry + n * dstRate) / srcRate, (carry + n * dstRate) % srcRate)

/-- Modelled from the spec: `swr_get_delay(ctx, srcRate)` reports the
buffered delay — the input samples whose output has not yet been
emitted — in source-rate units, i.e. the retained remainder rounded up
to whole source samples. -/
def swr_get_delay_model (dstRate carry : Nat) : Nat :=
  carry ⌈/⌉ dstRate

/-- Running the modelled converter over a sequence of input block
sizes: returns the total output sample count and the final carry. -/
def swr_run (srcRate dstRate : Nat) (carry : Nat) : List Nat → Nat × Nat
  | [] => (0, carry)
  | n :: ns =>
    let r := swr_convert_model srcRate dstRate carry n
    let rest := swr_run srcRate dstRate r.2 ns
    (r.1 + rest.1, rest.2)

/-- Sample conservation: over any run, `srcRate` times the total output
plus the final slack equals the initial slack plus `dstRate` times the
total input — no sample's contribution is ever dropped. -/
theorem swr_run_conservation (srcRate dstRate : Nat) (ns : List Nat) (carry : Nat) :
    srcRate * (swr_run srcRate dstRate carry ns).1 +
        (swr_run srcRate dstRate carry ns).2 =
      carry + dstRate * ns.sum := by
  induction ns generalizing carry with
  | nil => simp [swr_run]
  | cons n ns ih =>
    simp only [swr_run, swr_convert_model, List.sum_cons]
    rw [Nat.mul_add, Nat.add_assoc, ih ((carry + n * dstRate) % srcRate)]
    have := Nat.div_add_mod (carry + n * dstRate) srcRate
    ring_nf
    omega

theorem swr_run_carry_lt (srcRate dstRate : Nat) (hsrc : 0 < srcRate) (ns : List Nat)
    (carry : Nat) (hc : carry < srcRate) :
    (swr_run srcRate dstRate carry ns).2 < srcRate := by
  induction ns generalizing carry with
  | nil => simpa [swr_run]
  | cons n ns ih =>
    simp only [swr_run, swr_convert_model]
    exact ih _ (Nat.mod_lt _ hsrc)

/-- **C5.** The conversion buffer is sized by ceiling-rounded rate
scaling of (buffered delay + input sample count): `dst_nb_samples` is
the least sample count `k` with `(delay + n) * dstRate ≤ k * srcRate`;
that allocation always holds the samples the modelled converter emits;
and the rounding slack is retained in the converter state — over any
run, output plus retained slack accounts exactly for the scaled input,
and the slack stays below one source unit so it surfaces in the next
call rather than being dropped. -/
theorem C5_ceiling_allocation_and_slack (delay n dstRate srcRate carry : Nat)
    (ns : List Nat) (hsrc : 0 < srcRate) (hdst : 0 < dstRate) (hc : carry < srcRate) :
    ((delay + n) * dstRate ≤ srcRate * dst_nb_samples delay n dstRate srcRate ∧
      ∀ k, (delay + n) * dstRate ≤ srcRate * k →
        dst_nb_samples delay n dstRate srcRate ≤ k) ∧
      (swr_convert_model srcRate dstRate carry n).1 ≤
        dst_nb_samples (swr_get_delay_model dstRate carry) n dstRate srcRate ∧
      (srcRate * (swr_run srcRate dstRate carry ns).1 +
          (swr_run srcRate dstRate carry ns).2 =
        carry + dstRate * ns.sum ∧
        (swr_run srcRate dstRate carry ns).2 < srcRate) := by
  refine ⟨⟨?_, ?_⟩, ?_, swr_run_conservation srcRate dstRate ns carry,
    swr_run_carry_lt srcRate dstRate hsrc ns carry hc⟩
  · rw [dst_nb_samples, av_rescale_rnd_up_eq_ceilDiv]
    simpa [smul_eq_mul] using le_smul_ceilDiv (b := (delay + n) * dstRate) hsrc
  · intro k hk
    rw [dst_nb_samples, av_rescale_rnd_up_eq_ceilDiv]
    exact (ceilDiv_le_iff_le_mul hsrc).mpr hk
  · -- allocation sufficiency: the delay reported in source units over-
    -- approximates the carried slack, so the ceiling allocation covers
    -- the actual per-call output
    have hdelay : carry ≤ swr_get_delay_model dstRate carry * dstRate := by
      simpa [swr_get_delay_model, smul_eq_mul, Nat.mul_comm] using
        le_smul_ceilDiv (b := carry) hdst
    have hnum : carry + n * dstRate ≤
        (swr_get_delay_model dstRate carry + n) * dstRate := by
      rw [Nat.add_mul]
      omega
    have hle : (carry + n * dstRate) / srcRate ≤
        ((swr_get_delay_model dstRate carry + n) * dstRate) / srcRate :=
      Nat.div_le_div_right hnum
    refine le_trans hle ?_
    rw [dst_nb_samples, av_rescale_rnd_up_eq_ceilDiv]
    rw [← Nat.floorDiv_eq_div]
    exact floorDiv_le_ceilDiv

theorem C5_ceiling_allocation_and_slack_witness :
    ((3 + 5) * 48 ≤ 44 * dst_nb_samples 3 5 48 44 ∧
      ∀ k, (3 + 5) * 48 ≤ 44 * k → dst_nb_samples 3 5 48 44 ≤ k) ∧
      (swr_convert_model 44 48 7 5).1 ≤
        dst_nb_samples (swr_get_delay_model 48 7) 5 48 44 ∧
      (44 * (swr_run 44 48 7 [5, 3, 11]).1 + (swr_run 44 48 7 [5, 3, 11]).2 =
        7 + 48 * ([5, 3, 11] : List Nat).sum ∧
        (swr_run 44 48 7 [5, 3, 11]).2 < 44) :=
  C5_ceiling_allocation_and_slack 3 5 48 44 7 [5, 3, 11]
    (by decide) (by decide) (by decide)

/-! ## FFmpeg error codes used by the sources

`AVERROR(e) = -e` on Linux; `AVERROR_EOF = FFERRTAG('E','O','F',' ')`. -/

def AVERROR_EAGAIN : Int := -11

def AVERROR_ENOMEM : Int := -12

def AVERROR_EOF : Int := -541478725

/-! ## `audio_filter_pull` (`src/audio_filter.c`) -/

/-- `audio_filter_pull`: allocate a frame with `av_frame_alloc`
(`alloc = none` models allocation failure, in which case the function
returns `AVERROR(ENOMEM)` with `*out_frame` left `NULL`), call
`av_buffersink_get_frame` (whose return code is `sinkRet`, the frame
being filled when `sinkRet ≥ 0`), free and null `*out_frame` when
`sinkRet < 0`, and return `sinkRet` unchanged. -/
def audio_filter_pull (alloc : Option α) (sinkRet : Int) : Int × Option α :=
  match alloc with
  | none => (AVERROR_ENOMEM, none)
  | some f => if sinkRet < 0 then (sinkRet, none) else (sinkRet, some f)

/-- **C9.** `audio_filter_pull` passes the sink's return code through
unchanged, so "no more output for this input" (`AVERROR(EAGAIN)`),
end of stream (`AVERROR_EOF`) and fatal faults (other negative codes)
stay distinct — in particular it yields `AVERROR(EAGAIN)` exactly when
the sink did — the three distinguished codes are pairwise different,
and on any negative return `*out_frame` is `NULL`. -/
theorem C9_pull_codes_distinct_and_null_on_error (alloc : Option α) (sinkRet : Int) :
    ((audio_filter_pull alloc sinkRet).1 < 0 →
      (audio_filter_pull alloc sinkRet).2 = none) ∧
    (∀ f, alloc = some f → (audio_filter_pull alloc sinkRet).1 = sinkRet) ∧
    (AVERROR_EAGAIN ≠ AVERROR_EOF ∧ AVERROR_ENOMEM ≠ AVERROR_EAGAIN ∧
      AVERROR_ENOMEM ≠ AVERROR_EOF) ∧
    ((audio_filter_pull alloc sinkRet).1 = AVERROR_EAGAIN ↔
      (alloc ≠ none ∧ sinkRet = AVERROR_EAGAIN)) := by
  refine ⟨?_, ?_, ⟨by decide, by decide, by decide⟩, ?_⟩
  · intro hneg
    cases alloc with
    | none => rfl
    | some f =>
      by_cases hs : sinkRet < 0
      · simp only [audio_filter_pull, if_pos hs]
      · simp only [audio_filter_pull, if_neg hs] at hneg
        exact absurd hneg hs
  · intro f hf
    subst hf
    by_cases hs : sinkRet < 0
    · simp only [audio_filter_pull, if_pos hs]
    · simp only [audio_filter_pull, if_neg hs]
  · cases alloc with
    | none =>
      simp only [audio_filter_pull]
      constructor
      · intro h
        exact absurd h (by decide)
      · rintro ⟨h, _⟩
        exact absurd rfl h
    | some f =>
      have h1 : (audio_filter_pull (some f) sinkRet).1 = sinkRet := by
        by_cases hs : sinkRet < 0
        · simp only [audio_filter_pull, if_pos hs]
        · simp only [audio_filter_pull, if_neg hs]
      rw [h1]
      simp

theorem C9_pull_codes_distinct_and_null_on_error_witness :
    ((audio_filter_pull (some 0) AVERROR_EAGAIN).1 < 0 →
      (audio_filter_pull (some 0) AVERROR_EAGAIN).2 = none) ∧
    (∀ f, (some 0 : Option Nat) = some f →
      (audio_filter_pull (some 0) AVERROR_EAGAIN).1 = AVERROR_EAGAIN) ∧
    (AVERROR_EAGAIN ≠ AVERROR_EOF ∧ AVERROR_ENOMEM ≠ AVERROR_EAGAIN ∧
      AVERROR_ENOMEM ≠ AVERROR_EOF) ∧
    ((audio_filter_pull (some 0) AVERROR_EAGAIN).1 = AVERROR_EAGAIN ↔
      ((some 0 : Option Nat) ≠ none ∧ AVERROR_EAGAIN = AVERROR_EAGAIN)) :=
  C9_pull_codes_distinct_and_null_on_error (some 0) AVERROR_EAGAIN

/-! ## `audio_decoder_read` (`src/audio_dec.c:151-241`) -/

/-- Outcomes of the external FFmpeg calls made by one invocation of
`audio_decoder_read`: the return codes of `av_read_frame`, the comparison
`pkt->stream_index == decoder->stream_index`, `avcodec_send_packet`,
`avcodec_receive_frame`, `av_samples_alloc_array_and_samples`,
`swr_convert`, and `av_samples_get_buffer_size`. -/
structure DecReadEnv where
  readRet : Int
  isAudio : Bool
  sendRet : Int
  recvRet : Int
  allocRet : Int
  swrRet : Int
  bufSize : Int
deriving DecidableEq, Repr

/-- Result of `audio_decoder_read`: its return value, whether
`*out_data` was set to a buffer (`false` = left `NULL`), and `*out_size`. -/
structure DecReadResult where
  ret : Int
  outData : Bool
  outSize : Int
deriving DecidableEq, Repr

/-- `audio_decoder_read`: sets `*out_data = NULL, *out_size = 0` first;
returns 0 when `av_read_frame` fails (end of stream or read error);
skips non-audio packets with return 1; returns 1 after a send error;
inside the receive loop, every failure (`avcodec_receive_frame` not
succeeding — including `EAGAIN`/`EOF` —, allocation failure, resampling
failure, bad buffer size) breaks out and falls through to `return 1`
with the outputs untouched; only the full success path publishes the
converted buffer. -/
def audio_decoder_read (env : DecReadEnv) : DecReadResult :=
  if env.readRet < 0 then ⟨0, false, 0⟩
  else if env.isAudio = false then ⟨1, false, 0⟩
  else if env.sendRet < 0 then ⟨1, false, 0⟩
  else if env.recvRet < 0 then ⟨1, false, 0⟩
  else if env.allocRet < 0 then ⟨1, false, 0⟩
  else if env.swrRet < 0 then ⟨1, false, 0⟩
  else if env.bufSize < 0 then ⟨1, false, 0⟩
  else ⟨1, true, env.bufSize⟩

/-- **C10.** `audio_decoder_read` returns 0 exactly when reading the
next packet fails (end of stream or read error); every other return is
1; on every non-success condition after a successful read (non-audio
packet, send/receive error, allocation, resampling or buffer-size
failure) it returns 1 with `*out_data = NULL` and `*out_size = 0`; and
a return of 1 does not guarantee output data is present. -/
theorem C10_read_return_codes (env : DecReadEnv) :
    ((audio_decoder_read env).ret = 0 ↔ env.readRet < 0) ∧
    ((audio_decoder_read env).ret = 0 ∨ (audio_decoder_read env).ret = 1) ∧
    (¬ env.readRet < 0 →
      (env.isAudio = false ∨ env.sendRet < 0 ∨ env.recvRet < 0 ∨
        env.allocRet < 0 ∨ env.swrRet < 0 ∨ env.bufSize < 0) →
      (audio_decoder_read env).ret = 1 ∧ (audio_decoder_read env).outData = false ∧
        (audio_decoder_read env).outSize = 0) ∧
    (∃ env' : DecReadEnv, (audio_decoder_read env').ret = 1 ∧
      (audio_decoder_read env').outData = false) := by
  refine ⟨?_, ?_, ?_, ⟨⟨0, false, 0, 0, 0, 0, 0⟩, by decide⟩⟩
  · unfold audio_decoder_read
    split_ifs <;> simp_all
  · unfold audio_decoder_read
    split_ifs <;> simp
  · intro hread hfail
    unfold audio_decoder_read
    split_ifs <;> simp_all

theorem C10_read_return_codes_witness :
    ((audio_decoder_read ⟨0, false, 0, 0, 0, 0, 0⟩).ret = 0 ↔ (0 : Int) < 0) ∧
    ((audio_decoder_read ⟨0, false, 0, 0, 0, 0, 0⟩).ret = 0 ∨
      (audio_decoder_read ⟨0, false, 0, 0, 0, 0, 0⟩).ret = 1) ∧
    (¬ (0 : Int) < 0 →
      (false = false ∨ (0 : Int) < 0 ∨ (0 : Int) < 0 ∨ (0 : Int) < 0 ∨
        (0 : Int) < 0 ∨ (0 : Int) < 0) →
      (audio_decoder_read ⟨0, false, 0, 0, 0, 0, 0⟩).ret = 1 ∧
        (audio_decoder_read ⟨0, false, 0, 0, 0, 0, 0⟩).outData = false ∧
        (audio_decoder_read ⟨0, false, 0, 0, 0, 0, 0⟩).outSize = 0) ∧
    (∃ env' : DecReadEnv, (audio_decoder_read env').ret = 1 ∧
      (audio_decoder_read env').outData = false) :=
  C10_read_return_codes ⟨0, false, 0, 0, 0, 0, 0⟩

/-! ## The driving loop of `main` (`main.c:168-237`, encoder path) -/

/-- The pipeline stages at which the loop body can fail. -/
inductive Stage where
  | frameAlloc
  | frameFill
  | filterPush
  | encode
deriving DecidableEq, Repr

/-- Externally observable events of the driving loop: a block/frame
handed to the encoder (and thus to the muxer), or an error report
naming the failing stage. -/
inductive Ev where
  | frameEncoded
  | errorAt (s : Stage)
deriving DecidableEq, Repr

/-- Outcomes of the external calls made during one iteration of the
`while (audio_decoder_read(...))` loop: whether the read returned 1,
whether `data && size > 0`, and the success of `av_frame_alloc`,
`avcodec_fill_audio_frame`, `audio_filter_push`, each
`audio_enc_write_frame` on a pulled filtered frame (`pulls`), and the
direct `audio_enc_write_frame` (`encodeOk`, no-filter path). -/
structure IterEnv where
  readOk : Bool
  hasData : Bool
  allocOk : Bool
  fillOk : Bool
  pushOk : Bool
  pulls : List Bool
  encodeOk : Bool
deriving DecidableEq, Repr

/-- One iteration of the loop body (`main.c:172-236`): returns the
events it produces and whether the loop keeps running afterwards.
Faithful control flow: frame-allocation failure `break`s; fill failure
and filter-push failure `continue`; an encode failure only prints
"Error encoding frame" and the loop (and even the pull loop) keeps
going. -/
def iterEvents (useFilter : Bool) (it : IterEnv) : List Ev × Bool :=
  if it.hasData = false then ([], true)
  else if it.allocOk = false then ([Ev.errorAt .frameAlloc], false)
  else if it.fillOk = false then ([Ev.errorAt .frameFill], true)
  else if useFilter then
    if it.pushOk = false then ([Ev.errorAt .filterPush], true)
    else
      (it.pulls.map fun ok => if ok then Ev.frameEncoded else Ev.errorAt .encode,
       true)
  else
    (if it.encodeOk then [Ev.frameEncoded] else [Ev.errorAt .encode], true)

/-- The driving loop: iterate until `audio_decoder_read` returns 0 or an
iteration breaks. -/
def mainLoop (useFilter : Bool) : List IterEnv → List Ev
  | [] => []
  | it :: its =>
    if it.readOk = false then []
    else
      (iterEvents useFilter it).1 ++
        (if (iterEvents useFilter it).2 then mainLoop useFilter its else [])

/-- The "core errors" named by the claim: filter-push and encode
failures. -/
def isCoreError : Ev → Bool
  | .errorAt .filterPush => true
  | .errorAt .encode => true
  | _ => false

/-- The claim as stated: whenever a core error occurs, the driving loop
stops immediately, i.e. the error report is the last event of the run. -/
def coreErrorsStopLoop : Prop :=
  ∀ (useFilter : Bool) (its : List IterEnv) (i : Nat)
    (hi : i < (mainLoop useFilter its).length),
    isCoreError ((mainLoop useFilter its).get ⟨i, hi⟩) = true →
      i = (mainLoop useFilter its).length - 1

/-- **C6 (counterexample).** The driving loop does NOT stop on a core
error: with two decoded blocks where the first block's encode fails,
`main` prints the error and still processes and encodes the second
block (`if (ret < 0) fprintf(...)` with no `break`, `main.c:227-229`;
the filter-push failure path even says `continue`, `main.c:202-205`). -/
theorem C6_counterexample_loop_continues_after_encode_error :
    ¬ coreErrorsStopLoop := by
  intro h
  have h2 := h false
    [⟨true, true, true, true, true, [], false⟩,
     ⟨true, true, true, true, true, [], true⟩]
    0 (by decide) (by decide)
  exact absurd h2 (by decide)

/-- **C6 (amended).** On a filter-push or encode failure the loop reports
the error with the stage at which it occurred and moves on to the next
decoded block — the failed block is skipped, never retried, and events
already emitted (output already written to the muxer) are unchanged;
the loop stops only when `audio_decoder_read` returns 0 or frame
allocation fails. -/
theorem C6_amended_error_reported_loop_continues (useFilter : Bool)
    (it : IterEnv) (its : List IterEnv)
    (hread : it.readOk = true) (hdata : it.hasData = true)
    (halloc : it.allocOk = true) (hfill : it.fillOk = true) :
    (useFilter = true → it.pushOk = false →
      mainLoop useFilter (it :: its) =
        Ev.errorAt .filterPush :: mainLoop useFilter its) ∧
    (useFilter = false → it.encodeOk = false →
      mainLoop useFilter (it :: its) =
        Ev.errorAt .encode :: mainLoop useFilter its) ∧
    (∀ (it' : IterEnv) (its' : List IterEnv), it'.readOk = false →
      mainLoop useFilter (it' :: its') = []) ∧
    (∀ (it' : IterEnv) (its' : List IterEnv), it'.readOk = true →
      it'.hasData = true → it'.allocOk = false →
      mainLoop useFilter (it' :: its') = [Ev.errorAt .frameAlloc]) := by
  refine ⟨?_, ?_, ?_, ?_⟩
  · intro huf hpush
    subst huf
    simp [mainLoop, iterEvents, hread, hdata, halloc, hfill, hpush]
  · intro huf henc
    subst huf
    simp [mainLoop, iterEvents, hread, hdata, halloc, hfill, henc]
  · intro it' its' hread'
    simp [mainLoop, hread']
  · intro it' its' hread' hdata' halloc'
    simp [mainLoop, iterEvents, hread', hdata', halloc']

theorem C6_amended_error_reported_loop_continues_witness :
    ((false = true → (⟨true, true, true, true, true, [], false⟩ : IterEnv).pushOk = false →
      mainLoop false
          [⟨true, true, true, true, true, [], false⟩,
           ⟨true, true, true, true, true, [], true⟩] =
        Ev.errorAt .filterPush ::
          mainLoop false [⟨true, true, true, true, true, [], true⟩]) ∧
    (false = false → (⟨true, true, true, true, true, [], false⟩ : IterEnv).encodeOk = false →
      mainLoop false
          [⟨true, true, true, true, true, [], false⟩,
           ⟨true, true, true, true, true, [], true⟩] =
        Ev.errorAt .encode ::
          mainLoop false [⟨true, true, true, true, true, [], true⟩]) ∧
    (∀ (it' : IterEnv) (its' : List IterEnv), it'.readOk = false →
      mainLoop false (it' :: its') = []) ∧
    (∀ (it' : IterEnv) (its' : List IterEnv), it'.readOk = true →
      it'.hasData = true → it'.allocOk = false →
      mainLoop false (it' :: its') = [Ev.errorAt .frameAlloc])) :=
  C6_amended_error_reported_loop_continues false
    ⟨true, true, true, true, true, [], false⟩
    [⟨true, true, true, true, true, [], true⟩]
    rfl rfl rfl rfl

/-! ## The end-of-stream flush sequence (C7)

`main.c:239-245` calls `audio_enc_finalize`, which performs
(`src/audio_enc.c:437-460`): `audio_enc_write_frame(encoder, NULL)` —
that is `encode_from_fifo(encoder, 1)` draining the FIFO remainder and
encoding any final short frame, then `encode_frame(encoder, NULL)`
sending the distinct flush signal to the encoder
(`src/audio_enc.c:426-434`) — and only if both succeed
`av_write_trailer`. -/

/-- Observable events of `audio_enc_finalize`. -/
inductive FinEv where
  | frame (n : Nat)
  | flushSignal
  | trailer
deriving DecidableEq, Repr

/-- Which external call during finalization fails first:
`drainFailAt k` = encoding the `k`-th drained frame fails (frames
`0..k-1` already went out), `flushFail` = the `NULL`-frame flush fails,
`ok` = full success. -/
inductive FinOutcome where
  | drainFailAt (k : Nat)
  | flushFail
  | ok
deriving DecidableEq, Repr

/-- Event trace of `audio_enc_finalize` (`src/audio_enc.c:437-460`):
drained frames (with their sample counts) in FIFO order, then the flush
signal, then the trailer; each error return truncates the rest of the
sequence. -/
def audio_enc_finalize_events (frameSize : Nat) (fifo : List α) (oc : FinOutcome) :
    List FinEv :=
  match oc with
  | .drainFailAt k =>
    (((encode_from_fifo frameSize true fifo).1.take k).map fun f => FinEv.frame f.length)
  | .flushFail =>
    ((encode_from_fifo frameSize true fifo).1.map fun f => FinEv.frame f.length) ++
      [FinEv.flushSignal]
  | .ok =>
    ((encode_from_fifo frameSize true fifo).1.map fun f => FinEv.frame f.length) ++
      [FinEv.flushSignal, FinEv.trailer]

/-- **C7.** The flush sequence is: drain the accumulator remainder
(encoding the final short frame exactly when the FIFO is non-empty),
then the distinct `NULL`-frame flush signal, then the trailer — every
possible trace is some drained frames, optionally followed by the flush
signal, optionally followed by the trailer, in that order; and the
trailer appears only in the trace that contains the complete drain and
the flush signal before it. -/
theorem C7_flush_then_trailer_order (frameSize : Nat) (fifo : List α)
    (oc : FinOutcome) (hfs : 0 < frameSize) :
    (∃ (pre : List (List α)) (suffix : List FinEv),
      audio_enc_finalize_events frameSize fifo oc =
        (pre.map fun f => FinEv.frame f.length) ++ suffix ∧
      (suffix = [] ∨ suffix = [FinEv.flushSignal] ∨
        suffix = [FinEv.flushSignal, FinEv.trailer])) ∧
    (FinEv.trailer ∈ audio_enc_finalize_events frameSize fifo oc →
      audio_enc_finalize_events frameSize fifo oc =
        ((encode_from_fifo frameSize true fifo).1.map fun f => FinEv.frame f.length) ++
          [FinEv.flushSignal, FinEv.trailer]) ∧
    ((encode_from_fifo frameSize true fifo).1 = [] ↔ fifo = []) := by
  refine ⟨?_, ?_, encode_from_fifo_drain_empty_iff frameSize fifo hfs⟩
  · cases oc with
    | drainFailAt k =>
      exact ⟨(encode_from_fifo frameSize true fifo).1.take k, [],
        by simp [audio_enc_finalize_events], Or.inl rfl⟩
    | flushFail =>
      exact ⟨(encode_from_fifo frameSize true fifo).1, [FinEv.flushSignal],
        rfl, Or.inr (Or.inl rfl)⟩
    | ok =>
      exact ⟨(encode_from_fifo frameSize true fifo).1,
        [FinEv.flushSignal, FinEv.trailer], rfl, Or.inr (Or.inr rfl)⟩
  · intro htr
    cases oc with
    | drainFailAt k =>
      exfalso
      rcases List.mem_map.mp htr with ⟨f, _, hf⟩
      exact FinEv.noConfusion hf
    | flushFail =>
      exfalso
      rcases List.mem_append.mp htr with hm | hm
      · rcases List.mem_map.mp hm with ⟨f, _, hf⟩
        exact FinEv.noConfusion hf
      · rcases List.mem_singleton.mp hm with h
        exact FinEv.noConfusion h
    | ok => rfl

theorem C7_flush_then_trailer_order_witness :
    ((∃ (pre : List (List Nat)) (suffix : List FinEv),
      audio_enc_finalize_events 2 [1, 2, 3] FinOutcome.ok =
        (pre.map fun f => FinEv.frame f.length) ++ suffix ∧
      (suffix = [] ∨ suffix = [FinEv.flushSignal] ∨
        suffix = [FinEv.flushSignal, FinEv.trailer])) ∧
    (FinEv.trailer ∈ audio_enc_finalize_events 2 [1, 2, 3] FinOutcome.ok →
      audio_enc_finalize_events 2 [1, 2, 3] FinOutcome.ok =
        ((encode_from_fifo 2 true [1, 2, 3]).1.map fun f => FinEv.frame f.length) ++
          [FinEv.flushSignal, FinEv.trailer]) ∧
    ((encode_from_fifo 2 true ([1, 2, 3] : List Nat)).1 = [] ↔
      ([1, 2, 3] : List Nat) = [])) :=
  C7_flush_then_trailer_order 2 [1, 2, 3] FinOutcome.ok (by decide)

/-! ## Empty decoded blocks are no-ops (C8) -/

/-- Encoder-side pipeline state: the FIFO contents and the
stream-position counter `encoder->pts`. -/
structure EncState (α : Type _) where
  fifo : List α
  pts : Int

/-- State change of one successful `audio_enc_write_frame` call with a
real frame (`src/audio_enc.c:413-425`): the converted samples are
appended at the FIFO tail, complete frames are drained, and
`encoder->pts` advances by each emitted frame's sample count
(`encode_frame`, `src/audio_enc.c:260-262`).  Returns the new state and
the emitted frames. -/
def audio_enc_write_frame_step (frameSize : Nat) (st : EncState α) (block : List α) :
    EncState α × List (List α) :=
  let r := encode_from_fifo frameSize false (st.fifo ++ block)
  (⟨r.2, st.pts + ((r.1.map List.length).sum : Int)⟩, r.1)

/-- One iteration of the main loop per decoded block
(`main.c:172-236`, encoder path): a block that is `NULL` or has
`size = 0` fails the `if (data && size > 0)` guard and is skipped;
otherwise it goes to `audio_enc_write_frame`. -/
def mainBodyStep (frameSize : Nat) (st : EncState α) (block : Option (List α)) :
    EncState α × List (List α) :=
  match block with
  | none => (st, [])
  | some b => audio_enc_write_frame_step frameSize st b

/-- **C8.** A decoded block of zero samples — `NULL` data / `size = 0`
(skipped by `main.c:172-173`), or an empty sample list reaching the
encoder — is a no-op: no frame (in particular no zero-length frame) is
emitted and neither the FIFO nor the timestamp counter changes.  The
hypothesis is the loop invariant that between iterations the FIFO holds
fewer than `frame_size` samples (every complete frame was drained). -/
theorem C8_zero_sample_block_noop (frameSize : Nat) (st : EncState α)
    (hinv : st.fifo.length < frameSize) :
    mainBodyStep frameSize st none = (st, []) ∧
    mainBodyStep frameSize st (some []) = (st, []) := by
  obtain ⟨fifo, pts⟩ := st
  refine ⟨rfl, ?_⟩
  have hneg : ¬ ((frameSize ≤ (fifo ++ ([] : List α)).length ∨
      ((false : Bool) ∧ 0 < (fifo ++ ([] : List α)).length)) ∧ 0 < frameSize) := by
    simp only [List.append_nil]
    simp at hinv ⊢
    omega
  simp only [mainBodyStep, audio_enc_write_frame_step,
    encode_from_fifo_of_neg hneg]
  simp

/-- The hypothesis of the empty-block no-op result is an invariant: the
main loop drains every complete frame on each iteration, so between
iterations the FIFO always holds fewer than `frame_size` samples. -/
theorem mainBodyStep_preserves_fifo_bound (frameSize : Nat) (hfs : 0 < frameSize)
    (st : EncState α) (block : Option (List α))
    (hinv : st.fifo.length < frameSize) :
    (mainBodyStep frameSize st block).1.fifo.length < frameSize := by
  cases block with
  | none => exact hinv
  | some b =>
    simp only [mainBodyStep, audio_enc_write_frame_step]
    rcases encode_from_fifo_stream_residue frameSize (st.fifo ++ b) with h | h
    · exact h
    · omega

theorem C8_zero_sample_block_noop_witness :
    mainBodyStep 3 (⟨[1, 2], 5⟩ : EncState Nat) none = (⟨[1, 2], 5⟩, []) ∧
    mainBodyStep 3 (⟨[1, 2], 5⟩ : EncState Nat) (some []) = (⟨[1, 2], 5⟩, []) :=
  C8_zero_sample_block_noop 3 ⟨[1, 2], 5⟩ (by decide)

end Audx
